import Mathlib

set_option autoImplicit false

namespace CanMonitor

/-! # Embedding of CANopen-monitor

Shallow embedding of `src/canopen_monitor/can/message_table.py` and
`src/canmon/bus.py`.  Python dicts become association lists with
replace-in-place insertion, Python list indexing (including negative
indices) becomes `pyGet`, and exceptions become `Except` / sum results. -/

/-- Message types.  The Python `MessageType` enum is modelled by
natural-number codes; only membership tests on them matter here. -/
abbrev MessageType := Nat

/-- Modelled from the spec: the `Message` class
(`canopen_monitor/can/message.py` is not under `src/`): a CAN frame record
carrying its arbitration id, classified type and supertype, raw payload
bytes, and a display text `message`. -/
structure Message where
  arb_id : Nat
  type : MessageType
  supertype : MessageType
  raw : List Nat
  message : String
deriving Repr, DecidableEq

/-- One hexadecimal digit. -/
def hexDigit (n : Nat) : Char :=
  if n < 10 then Char.ofNat (48 + n) else Char.ofNat (87 + (n % 16))

/-- Two-digit hexadecimal rendering of a byte. -/
def hexByte (n : Nat) : String :=
  String.mk [hexDigit ((n / 16) % 16), hexDigit (n % 16)]

/-- Modelled from the spec: the raw fallback representation of a message
(hex payload text) used when no decode is available. -/
def rawRepr (m : Message) : String :=
  "0x" ++ String.join (m.raw.map hexByte)

/-- Modelled from the spec: the decode capability (`CANOpenParser`, not
under `src/`).  `decode` may fail on a given message. -/
structure Parser where
  decode : Message → Option String

/-- Modelled from the spec: `CANOpenParser.parse` (not under `src/`)
returns the decoded text and, when decoding fails, falls back to the raw
hex representation for that single message instead of raising. -/
def Parser.parse (p : Parser) (m : Message) : String :=
  match p.decode m with
  | some s => s
  | none => rawRepr m

/-- Python dict assignment `d[k] = v`: replaces the value in place when the
key is already bound, otherwise appends a new binding at the end. -/
def dictInsert (t : List (Nat × Message)) (k : Nat) (v : Message) :
    List (Nat × Message) :=
  match t with
  | [] => [(k, v)]
  | (k', v') :: rest =>
    if k' = k then (k, v) :: rest else (k', v') :: dictInsert rest k v

/-- Python dict access `d[k]`, `none` for a missing key (KeyError). -/
def dictLookup (t : List (Nat × Message)) (k : Nat) : Option Message :=
  match t with
  | [] => none
  | (k', v) :: rest => if k' = k then some v else dictLookup rest k

/-- Python list indexing `xs[i]`: nonnegative indices count from the front,
negative indices from the back, anything out of range raises IndexError
(`none`). -/
def pyGet (xs : List Nat) (i : Int) : Option Nat :=
  if 0 ≤ i then xs.get? i.toNat
  else if (-i).toNat ≤ xs.length then xs.get? (xs.length - (-i).toNat)
  else none

/-- Python exceptions that the embedded fragments can raise. -/
inductive PyError where
  | typeError
  | valueError
deriving Repr, DecidableEq

/-- State of `MessageTable`: the decode capability, the dict of messages keyed
by arbitration id, and the iteration state (`__keys`, `__start`, `__stop`)
written by `__iter__` and `__call__`.  The cursors are Python ints. -/
structure MessageTable where
  parser : Option Parser
  table : List (Nat × Message) := []
  keys : List Nat := []
  start : Int := 0
  stop : Int := 0

/-- Insert, `MessageTable.__add__`: parse through the configured parser when one is
present, then store under the message's arbitration id (overwriting). -/
def MessageTable.add (t : MessageTable) (message : Message) : MessageTable :=
  let message :=
    match t.parser with
    | none => message
    | some p => { message with message := p.parse message }
  { t with table := dictInsert t.table message.arb_id message }

/-- Size, `MessageTable.__len__`: the number of live entries. -/
def MessageTable.len (t : MessageTable) : Nat :=
  t.table.length

/-- Filtering, `MessageTable.filter`: a fresh table, sharing the parser, keeping
exactly the entries whose type or supertype is in `types`. -/
def MessageTable.filterTypes (t : MessageTable) (types : List MessageType) :
    MessageTable :=
  { parser := t.parser,
    table := t.table.filter
      (fun p => types.contains p.2.type || types.contains p.2.supertype) }

/-- Membership test, `MessageTable.__contains__`. -/
def MessageTable.containsId (t : MessageTable) (node_id : Nat) : Bool :=
  (dictLookup t.table node_id).isSome

/-- Iteration setup, `MessageTable.__iter__`: recompute `__keys` as the sorted key list; the
cursors are left untouched. -/
def MessageTable.iter (t : MessageTable) : MessageTable :=
  { t with keys := (t.table.map Prod.fst).insertionSort (fun a b => a ≤ b) }

/-- Result of one `__next__` call: StopIteration, a message together with
the advanced table state, or an unmodelled Python error (bad index or
missing key). -/
inductive NextResult where
  | stopIteration
  | item (m : Message) (t : MessageTable)
  | indexErr

/-- Stepping, `MessageTable.__next__`: stop exactly when `__start == __stop`,
otherwise yield `table[__keys[__start]]` and advance `__start`. -/
def MessageTable.next (t : MessageTable) : NextResult :=
  if t.start = t.stop then NextResult.stopIteration
  else
    match pyGet t.keys t.start with
    | none => NextResult.indexErr
    | some k =>
      match dictLookup t.table k with
      | none => NextResult.indexErr
      | some m => NextResult.item m { t with start := t.start + 1 }

/-- Window selection, `MessageTable.__call__(start, stop)`: comparing a `None` stop with the
table length raises TypeError; otherwise clamp `__stop` to the table length
and `__start` to the clamped `__stop`. -/
def MessageTable.call (t : MessageTable) (start : Int) (stop : Option Int) :
    Except PyError MessageTable :=
  match stop with
  | none => Except.error PyError.typeError
  | some s =>
    let e : Int := if s < (t.table.length : Int) then s else (t.table.length : Int)
    let b : Int := if start < e then start else e
    Except.ok { t with stop := e, start := b }

/-- Run `__next__` repeatedly (as a `for` loop does), collecting the yielded
messages until StopIteration, an error, or the fuel runs out. -/
def MessageTable.iterate (t : MessageTable) (fuel : Nat) :
    List Message × MessageTable :=
  match fuel with
  | 0 => ([], t)
  | Nat.succ fuel =>
    match t.next with
    | NextResult.item m t' =>
      let r := t'.iterate fuel
      (m :: r.1, r.2)
    | _ => ([], t)

/-- The full `for message in table(start, stop)` pipeline: `__call__`, then
`__iter__`, then repeated `__next__`. -/
def MessageTable.window (t : MessageTable) (a : Int) (b : Option Int)
    (fuel : Nat) : Except PyError (List Message × MessageTable) :=
  match t.call a b with
  | Except.error e => Except.error e
  | Except.ok t1 => Except.ok ((t1.iter).iterate fuel)

/-- Arbitration ids yielded by a window selection, `none` when the
selection itself raised. -/
def MessageTable.windowIds (t : MessageTable) (a : Int) (b : Option Int)
    (fuel : Nat) : Option (List Nat) :=
  match t.window a b fuel with
  | Except.error _ => none
  | Except.ok (ms, _) => some (ms.map Message.arb_id)

/-! ## The bus (`src/canmon/bus.py`) -/

/-- State of `TheMagicCanBus`: active device handles, the frame queue contents
(frame, device), the shared stop signal, the spawned listener threads in
spawn order, and the threads joined so far in join order. -/
structure TheMagicCanBus where
  devs : List Nat
  frames : List (Nat × Nat) := []
  stop_listening : Bool := false
  threads : List Nat := []
  joined : List Nat := []
deriving Repr, DecidableEq

/-- Detach, `TheMagicCanBus.stop`: `self.devs.remove(dev)` — removes the first
occurrence of the handle, raising ValueError when it is absent. -/
def TheMagicCanBus.stop (bus : TheMagicCanBus) (dev : Nat) :
    Except PyError TheMagicCanBus :=
  if dev ∈ bus.devs then Except.ok { bus with devs := bus.devs.erase dev }
  else Except.error PyError.valueError

/-- The `for dev in self.devs: self.stop(dev)` loop of `stop_all`, with
Python's index-based list iteration semantics: the loop keeps its own index
into the list being mutated and stops once the index reaches the current
length. -/
def forEachRemove (devs : List Nat) (i fuel : Nat) : List Nat :=
  match fuel with
  | 0 => devs
  | Nat.succ fuel =>
    match devs.get? i with
    | none => devs
    | some d => forEachRemove (devs.erase d) (i + 1) fuel

/-- Shutdown, `TheMagicCanBus.stop_all`: run the removal loop over `devs`, set the
shared stop signal, then join every spawned thread in spawn order. -/
def TheMagicCanBus.stop_all (bus : TheMagicCanBus) : TheMagicCanBus :=
  { bus with
    devs := forEachRemove bus.devs 0 bus.devs.length,
    stop_listening := true,
    joined := bus.joined ++ bus.threads }

/-- One observed listener iteration: a received frame together with whether
the queue put raised Full, or an OSError raised by `recv`. -/
inductive RecvEvent where
  | frame (f : Nat) (full : Bool)
  | oserror
deriving Repr, DecidableEq

/-- Why a listener loop run ended. -/
inductive ExitReason where
  | stopSignal
  | queueFull
  | ioError
  | fuelOut
  | raised (e : PyError)
deriving Repr, DecidableEq

/-- Listener loop, `TheMagicCanBus.listen`, driven by a trace: each iteration records the
stop-signal value observed at the top of the loop and the receive outcome.
A set stop signal exits cleanly; Full is swallowed and ends the loop;
OSError triggers `self.stop(dev)` and ends the loop. -/
def TheMagicCanBus.listen (bus : TheMagicCanBus) (dev : Nat)
    (trace : List (Bool × RecvEvent)) : TheMagicCanBus × ExitReason :=
  match trace with
  | [] => (bus, ExitReason.fuelOut)
  | (stopFlag, ev) :: rest =>
    if stopFlag then (bus, ExitReason.stopSignal)
    else
      match ev with
      | RecvEvent.oserror =>
        match bus.stop dev with
        | Except.ok b => (b, ExitReason.ioError)
        | Except.error e => (bus, ExitReason.raised e)
      | RecvEvent.frame f full =>
        if full then (bus, ExitReason.queueFull)
        else TheMagicCanBus.listen
          { bus with frames := bus.frames ++ [(f, dev)] } dev rest

/-- The parsed form of a message as `__add__` stores it. -/
def parsedMsg (t : MessageTable) (m : Message) : Message :=
  match t.parser with
  | none => m
  | some p => { m with message := p.parse m }

/-- The contiguous index slice `[s, e)` of a list. -/
def slice (xs : List Nat) (s e : Nat) : List Nat :=
  (xs.drop s).take (e - s)

/-- The sorted key list `sorted(list(self.table.keys()))`. -/
def sortedKeys (t : MessageTable) : List Nat :=
  (t.table.map Prod.fst).insertionSort (fun a b => a ≤ b)

/-- Well-formedness of a table: no duplicate keys, and every entry is
stored under its own arbitration id (as `__add__` does). -/
def WF (t : MessageTable) : Prop :=
  (t.table.map Prod.fst).Nodup ∧ ∀ p ∈ t.table, p.2.arb_id = p.1

instance WF_decidable (t : MessageTable) : Decidable (WF t) := by
  unfold WF
  infer_instance

/-- A heartbeat-like record with arbitration id 1. -/
def msgA : Message :=
  { arb_id := 1, type := 10, supertype := 20, raw := [], message := "a" }

/-- A record with arbitration id 2 and a different type. -/
def msgB : Message :=
  { arb_id := 2, type := 11, supertype := 20, raw := [], message := "b" }

/-- The two-entry table `{1: msgA, 2: msgB}` built through `__add__`. -/
def tAB : MessageTable :=
  MessageTable.add (MessageTable.add { parser := none } msgA) msgB

/-! ## Helper lemmas about the dict model -/

theorem add_table_eq (t : MessageTable) (m : Message) :
    (t.add m).table = dictInsert t.table m.arb_id (parsedMsg t m) := by
  cases h : t.parser <;> simp [MessageTable.add, parsedMsg, h]

theorem parsedMsg_arb_id (t : MessageTable) (m : Message) :
    (parsedMsg t m).arb_id = m.arb_id := by
  cases h : t.parser <;> simp [parsedMsg, h]

theorem mem_keys_dictInsert (tbl : List (Nat × Message)) (k : Nat) (v : Message)
    (x : Nat) :
    x ∈ (dictInsert tbl k v).map Prod.fst ↔ x = k ∨ x ∈ tbl.map Prod.fst := by
  induction tbl with
  | nil => simp [dictInsert]
  | cons p rest ih =>
    obtain ⟨k', v'⟩ := p
    by_cases h : k' = k
    · subst h
      simp [dictInsert]
    · simp [dictInsert, h, ih]
      tauto

theorem nodup_keys_dictInsert (tbl : List (Nat × Message)) (k : Nat) (v : Message)
    (h : (tbl.map Prod.fst).Nodup) : ((dictInsert tbl k v).map Prod.fst).Nodup := by
  induction tbl with
  | nil => simp [dictInsert]
  | cons p rest ih =>
    obtain ⟨k', v'⟩ := p
    simp only [List.map_cons, List.nodup_cons] at h
    by_cases hk : k' = k
    · subst hk
      simpa [dictInsert] using h
    · simp only [dictInsert, if_neg hk, List.map_cons, List.nodup_cons]
      refine ⟨?_, ih h.2⟩
      rw [mem_keys_dictInsert]
      rintro (rfl | hx)
      · exact hk rfl
      · exact h.1 hx

theorem length_dictInsert_mem (tbl : List (Nat × Message)) (k : Nat) (v : Message)
    (h : k ∈ tbl.map Prod.fst) : (dictInsert tbl k v).length = tbl.length := by
  induction tbl with
  | nil => simp at h
  | cons p rest ih =>
    obtain ⟨k', v'⟩ := p
    by_cases hk : k' = k
    · subst hk
      simp [dictInsert]
    · simp only [List.map_cons, List.mem_cons] at h
      rcases h with h | h
      · exact absurd h.symm hk
      · simp [dictInsert, hk, ih h]

theorem length_dictInsert_not_mem (tbl : List (Nat × Message)) (k : Nat) (v : Message)
    (h : k ∉ tbl.map Prod.fst) : (dictInsert tbl k v).length = tbl.length + 1 := by
  induction tbl with
  | nil => simp [dictInsert]
  | cons p rest ih =>
    obtain ⟨k', v'⟩ := p
    simp only [List.map_cons, List.mem_cons] at h
    push_neg at h
    simp [dictInsert, Ne.symm h.1, ih h.2]

theorem dictLookup_dictInsert_self (tbl : List (Nat × Message)) (k : Nat)
    (v : Message) : dictLookup (dictInsert tbl k v) k = some v := by
  induction tbl with
  | nil => simp [dictInsert, dictLookup]
  | cons p rest ih =>
    obtain ⟨k', v'⟩ := p
    by_cases hk : k' = k
    · subst hk
      simp [dictInsert, dictLookup]
    · simp [dictInsert, dictLookup, hk, ih]

theorem dictLookup_isSome_of_mem (tbl : List (Nat × Message)) (k : Nat)
    (h : k ∈ tbl.map Prod.fst) : (dictLookup tbl k).isSome := by
  induction tbl with
  | nil => simp at h
  | cons p rest ih =>
    obtain ⟨k', v'⟩ := p
    by_cases hk : k' = k
    · simp [dictLookup, hk]
    · simp only [List.map_cons, List.mem_cons] at h
      rcases h with h | h
      · exact absurd h.symm hk
      · simp [dictLookup, hk, ih h]

theorem dictLookup_mem (tbl : List (Nat × Message)) (k : Nat) (m : Message)
    (h : dictLookup tbl k = some m) : (k, m) ∈ tbl := by
  induction tbl with
  | nil => simp [dictLookup] at h
  | cons p rest ih =>
    obtain ⟨k', v'⟩ := p
    by_cases hk : k' = k
    · subst hk
      simp [dictLookup] at h
      simp [h]
    · simp only [dictLookup, if_neg hk] at h
      exact List.mem_cons_of_mem _ (ih h)

/-! ## Claim theorems -/

/-- C10: calling the window selector with its default second argument
(`table(start)`, i.e. `stop = None`) raises a TypeError from comparing
`None` with the table size rather than defaulting `stop` to the table
size; with an integer `stop` the selection always succeeds. -/
theorem call_stop_none_typeError (t : MessageTable) (a : Int) :
    t.call a none = Except.error PyError.typeError ∧
    ∀ s : Int, ∃ t' : MessageTable, t.call a (some s) = Except.ok t' := by
  refine ⟨rfl, fun s => ⟨_, rfl⟩⟩

/-- C1 (failing input): on a bus with two active devices, `stop_all`
removes the list elements while iterating over the list by index, so the
second device is still in the active set afterwards — contradicting
"detaches every active handle" (and the code's own comment).  The stop
signal and the joins do happen as described. -/
theorem stop_all_skips_devices :
    (TheMagicCanBus.stop_all { devs := [1, 2], threads := [10, 11] }) =
      { devs := [2], frames := [], stop_listening := true,
        threads := [10, 11], joined := [10, 11] } ∧
    2 ∈ (TheMagicCanBus.stop_all { devs := [1, 2], threads := [10, 11] }).devs := by
  constructor
  · rfl
  · decide

/-- C8: `stop(dev)` on a handle in the active set removes exactly that
handle; the frame queue, the stop signal, the thread list and the joined
list are untouched, and membership of every other handle is preserved. -/
theorem stop_detaches_only (bus : TheMagicCanBus) (dev : Nat)
    (h : dev ∈ bus.devs) :
    bus.stop dev = Except.ok { bus with devs := bus.devs.erase dev } ∧
    ∀ d, d ≠ dev → (d ∈ bus.devs.erase dev ↔ d ∈ bus.devs) := by
  constructor
  · simp [TheMagicCanBus.stop, h]
  · intro d hd
    exact List.mem_erase_of_ne hd

theorem stop_detaches_only_witness :
    1 ∈ ({ devs := [1, 2] } : TheMagicCanBus).devs ∧
    (TheMagicCanBus.stop { devs := [1, 2] } 1 =
        Except.ok { ({ devs := [1, 2] } : TheMagicCanBus) with
          devs := ([1, 2] : List Nat).erase 1 } ∧
      ∀ d, d ≠ 1 → (d ∈ ([1, 2] : List Nat).erase 1 ↔ d ∈ ([1, 2] : List Nat))) :=
  ⟨by decide, stop_detaches_only { devs := [1, 2] } 1 (by decide)⟩

/-- C4: an insert with no configured parser stores the message with its
text unchanged; with a parser whose decode fails on the message, the
insert still stores the message, its text replaced by the raw hex
fallback — the failure never aborts the insert. -/
theorem add_parse_fallback :
    (∀ (t : MessageTable) (m : Message), t.parser = none →
      dictLookup (t.add m).table m.arb_id = some m) ∧
    (∀ (t : MessageTable) (p : Parser) (m : Message), t.parser = some p →
      p.decode m = none →
      dictLookup (t.add m).table m.arb_id =
        some { m with message := rawRepr m }) := by
  constructor
  · intro t m hp
    simp [MessageTable.add, hp, dictLookup_dictInsert_self]
  · intro t p m hp hd
    simp [MessageTable.add, hp, Parser.parse, hd, dictLookup_dictInsert_self]

theorem add_parse_fallback_witness :
    (({ parser := none } : MessageTable).parser = none ∧
      dictLookup (MessageTable.add { parser := none }
          { arb_id := 1, type := 10, supertype := 20, raw := [], message := "a" }).table 1 =
        some { arb_id := 1, type := 10, supertype := 20, raw := [], message := "a" }) ∧
    (Parser.decode { decode := fun _ => none }
        { arb_id := 1, type := 10, supertype := 20, raw := [171], message := "a" } = none ∧
      dictLookup (MessageTable.add { parser := some { decode := fun _ => none } }
          { arb_id := 1, type := 10, supertype := 20, raw := [171], message := "a" }).table 1 =
        some { arb_id := 1, type := 10, supertype := 20, raw := [171],
               message := rawRepr { arb_id := 1, type := 10, supertype := 20,
                                    raw := [171], message := "a" } }) :=
  ⟨⟨rfl, add_parse_fallback.1 { parser := none }
      { arb_id := 1, type := 10, supertype := 20, raw := [], message := "a" } rfl⟩,
   ⟨rfl, add_parse_fallback.2 { parser := some { decode := fun _ => none } }
      { decode := fun _ => none }
      { arb_id := 1, type := 10, supertype := 20, raw := [171], message := "a" } rfl rfl⟩⟩

/-- C6: `filter` keeps exactly the entries whose type or supertype is in
`types`, shares the receiver's parser reference, and — being built as a
fresh table from the receiver without writing to it — leaves the receiver
unchanged (in this embedding `filterTypes` returns a new value and takes
the receiver unmodified). -/
theorem filterTypes_spec (t : MessageTable) (types : List MessageType) :
    (t.filterTypes types).parser = t.parser ∧
    ∀ k m, (k, m) ∈ (t.filterTypes types).table ↔
      ((k, m) ∈ t.table ∧ (m.type ∈ types ∨ m.supertype ∈ types)) := by
  refine ⟨rfl, fun k m => ?_⟩
  simp [MessageTable.filterTypes, List.mem_filter]

theorem foldl_add_nodup (ms : List Message) (t : MessageTable)
    (h : (t.table.map Prod.fst).Nodup) :
    (((ms.foldl MessageTable.add t).table).map Prod.fst).Nodup := by
  induction ms generalizing t with
  | nil => exact h
  | cons m rest ih =>
    simp only [List.foldl_cons]
    refine ih _ ?_
    rw [add_table_eq]
    exact nodup_keys_dictInsert _ _ _ h

theorem foldl_add_mem_keys (ms : List Message) (t : MessageTable) (x : Nat) :
    x ∈ ((ms.foldl MessageTable.add t).table).map Prod.fst ↔
      x ∈ t.table.map Prod.fst ∨ x ∈ ms.map Message.arb_id := by
  induction ms generalizing t with
  | nil => simp
  | cons m rest ih =>
    simp only [List.foldl_cons, ih, add_table_eq, mem_keys_dictInsert,
      List.map_cons, List.mem_cons]
    tauto

/-- C2: folding any sequence of messages into an empty table yields a table
whose keys are free of duplicates and whose size is the number of distinct
arbitration ids inserted; inserting a message whose arbitration id is
already present leaves the size unchanged. -/
theorem add_size_distinct_ids (p : Option Parser) (ms : List Message) :
    (((ms.foldl MessageTable.add { parser := p }).table).map Prod.fst).Nodup ∧
    (ms.foldl MessageTable.add { parser := p }).len =
      (ms.map Message.arb_id).dedup.length ∧
    ∀ (t : MessageTable) (m : Message), m.arb_id ∈ t.table.map Prod.fst →
      (t.add m).len = t.len := by
  have hnodup := foldl_add_nodup ms { parser := p } (by simp)
  refine ⟨hnodup, ?_, ?_⟩
  · have hperm : List.Perm
        (((ms.foldl MessageTable.add { parser := p }).table).map Prod.fst)
        ((ms.map Message.arb_id).dedup) := by
      rw [List.perm_ext_iff_of_nodup hnodup (List.nodup_dedup _)]
      intro a
      rw [foldl_add_mem_keys, List.mem_dedup]
      simp
    have h2 := hperm.length_eq
    rw [List.length_map] at h2
    simpa [MessageTable.len] using h2
  · intro t m hm
    rw [MessageTable.len, MessageTable.len, add_table_eq,
      length_dictInsert_mem _ _ _ hm]

theorem add_size_distinct_ids_witness :
    ((1 : Nat) ∈ (dictInsert []
        1 { arb_id := 1, type := 10, supertype := 20, raw := [], message := "a" }).map
          Prod.fst) ∧
    (MessageTable.add
        { parser := none,
          table := dictInsert []
            1 { arb_id := 1, type := 10, supertype := 20, raw := [], message := "a" } }
        { arb_id := 1, type := 10, supertype := 20, raw := [], message := "b" }).len =
      ({ parser := none,
         table := dictInsert []
           1 { arb_id := 1, type := 10, supertype := 20, raw := [], message := "a" } } :
        MessageTable).len :=
  ⟨by decide,
   (add_size_distinct_ids none []).2.2
     { parser := none,
       table := dictInsert []
         1 { arb_id := 1, type := 10, supertype := 20, raw := [], message := "a" } }
     { arb_id := 1, type := 10, supertype := 20, raw := [], message := "b" }
     (by decide)⟩

theorem listen_ioError_state (dev : Nat) (trace : List (Bool × RecvEvent)) :
    ∀ bus bus', TheMagicCanBus.listen bus dev trace = (bus', ExitReason.ioError) →
      bus'.devs = bus.devs.erase dev ∧
      bus'.stop_listening = bus.stop_listening ∧
      bus'.threads = bus.threads ∧
      bus'.joined = bus.joined := by
  induction trace with
  | nil =>
    intro bus bus' h
    simp [TheMagicCanBus.listen] at h
  | cons step rest ih =>
    obtain ⟨flag, ev⟩ := step
    intro bus bus' h
    by_cases hf : flag = true
    · simp [TheMagicCanBus.listen, hf] at h
    · cases ev with
      | oserror =>
        by_cases hd : dev ∈ bus.devs
        · simp [TheMagicCanBus.listen, hf, TheMagicCanBus.stop, hd] at h
          subst h
          simp
        · simp [TheMagicCanBus.listen, hf, TheMagicCanBus.stop, hd] at h
      | frame f full =>
        by_cases hfull : full = true
        · simp [TheMagicCanBus.listen, hf, hfull] at h
        · simp only [TheMagicCanBus.listen, hf, if_false, hfull,
            Bool.false_eq_true, ite_false] at h
          exact ih { bus with frames := bus.frames ++ [(f, dev)] } bus' h

theorem listen_queueFull_state (dev : Nat) (trace : List (Bool × RecvEvent)) :
    ∀ bus bus', TheMagicCanBus.listen bus dev trace = (bus', ExitReason.queueFull) →
      bus'.devs = bus.devs ∧
      bus'.stop_listening = bus.stop_listening ∧
      bus'.threads = bus.threads := by
  induction trace with
  | nil =>
    intro bus bus' h
    simp [TheMagicCanBus.listen] at h
  | cons step rest ih =>
    obtain ⟨flag, ev⟩ := step
    intro bus bus' h
    by_cases hf : flag = true
    · simp [TheMagicCanBus.listen, hf] at h
    · cases ev with
      | oserror =>
        by_cases hd : dev ∈ bus.devs <;>
          simp [TheMagicCanBus.listen, hf, TheMagicCanBus.stop, hd] at h
      | frame f full =>
        by_cases hfull : full = true
        · simp [TheMagicCanBus.listen, hf, hfull] at h
          subst h
          simp
        · simp only [TheMagicCanBus.listen, hf, if_false, hfull,
            Bool.false_eq_true, ite_false] at h
          exact ih { bus with frames := bus.frames ++ [(f, dev)] } bus' h

/-- C5: a set stop signal observed at the top of an iteration exits the
loop cleanly with the bus unchanged; an OSError on receive makes the
listener remove its own device handle (membership of every other handle is
preserved) and exit; a Full queue ends only that listener, with the active
set untouched. -/
theorem listen_spec (bus : TheMagicCanBus) (dev : Nat) :
    (∀ (ev : RecvEvent) (rest : List (Bool × RecvEvent)),
      bus.listen dev ((true, ev) :: rest) = (bus, ExitReason.stopSignal)) ∧
    (∀ trace bus', bus.listen dev trace = (bus', ExitReason.ioError) →
      bus'.devs = bus.devs.erase dev ∧
      bus'.stop_listening = bus.stop_listening ∧
      bus'.threads = bus.threads ∧
      ∀ d, d ≠ dev → (d ∈ bus'.devs ↔ d ∈ bus.devs)) ∧
    (∀ trace bus', bus.listen dev trace = (bus', ExitReason.queueFull) →
      bus'.devs = bus.devs ∧ bus'.threads = bus.threads) := by
  refine ⟨fun ev rest => by simp [TheMagicCanBus.listen], ?_, ?_⟩
  · intro trace bus' h
    obtain ⟨h1, h2, h3, _⟩ := listen_ioError_state dev trace bus bus' h
    refine ⟨h1, h2, h3, fun d hd => ?_⟩
    rw [h1]
    exact List.mem_erase_of_ne hd
  · intro trace bus' h
    obtain ⟨h1, _, h3⟩ := listen_queueFull_state dev trace bus bus' h
    exact ⟨h1, h3⟩

theorem listen_spec_witness :
    (TheMagicCanBus.listen { devs := [1, 2] } 1 [(false, RecvEvent.oserror)] =
      ({ devs := [2] }, ExitReason.ioError)) ∧
    (({ devs := [2] } : TheMagicCanBus).devs =
        ({ devs := [1, 2] } : TheMagicCanBus).devs.erase 1 ∧
      ({ devs := [2] } : TheMagicCanBus).stop_listening =
        ({ devs := [1, 2] } : TheMagicCanBus).stop_listening ∧
      ({ devs := [2] } : TheMagicCanBus).threads =
        ({ devs := [1, 2] } : TheMagicCanBus).threads ∧
      ∀ d, d ≠ 1 → (d ∈ ({ devs := [2] } : TheMagicCanBus).devs ↔
        d ∈ ({ devs := [1, 2] } : TheMagicCanBus).devs)) :=
  ⟨by decide,
   (listen_spec { devs := [1, 2] } 1).2.1 [(false, RecvEvent.oserror)]
     { devs := [2] } (by decide)⟩

/-! ## Window machinery -/

theorem slice_self (xs : List Nat) (s : Nat) : slice xs s s = [] := by
  simp [slice]

theorem slice_cons (xs : List Nat) (s e : Nat) (h1 : s < e) (h2 : s < xs.length) :
    slice xs s e = xs.get ⟨s, h2⟩ :: slice xs (s + 1) e := by
  unfold slice
  rw [List.drop_eq_getElem_cons h2]
  rw [show e - s = (e - (s + 1)) + 1 by omega, List.take_succ_cons]
  simp [List.get_eq_getElem]

theorem slice_sublist (xs : List Nat) (s e : Nat) :
    List.Sublist (slice xs s e) xs :=
  ((xs.drop s).take_sublist _).trans (xs.drop_sublist s)

theorem slice_length (xs : List Nat) (s e : Nat) (h : e ≤ xs.length) :
    (slice xs s e).length = e - s := by
  simp only [slice, List.length_take, List.length_drop]
  omega

theorem sortedKeys_perm (t : MessageTable) :
    List.Perm (sortedKeys t) (t.table.map Prod.fst) :=
  List.perm_insertionSort _ _

theorem sortedKeys_sorted (t : MessageTable) :
    List.Sorted (fun a b => a ≤ b) (sortedKeys t) :=
  List.sorted_insertionSort _ _

theorem sortedKeys_length (t : MessageTable) :
    (sortedKeys t).length = t.table.length := by
  rw [(sortedKeys_perm t).length_eq, List.length_map]

theorem setStart_eq_self (t : MessageTable) (x : Int) (h : t.start = x) :
    ({ t with start := x } : MessageTable) = t := by
  cases t
  cases h
  rfl

theorem iterate_stop (t : MessageTable) (h : t.start = t.stop) (fuel : Nat) :
    t.iterate fuel = ([], t) := by
  cases fuel with
  | zero => rfl
  | succ n => simp [MessageTable.iterate, MessageTable.next, h]

theorem filterMap_dictLookup_ids (tbl : List (Nat × Message))
    (hid : ∀ p ∈ tbl, p.2.arb_id = p.1) (ks : List Nat)
    (hks : ∀ k ∈ ks, k ∈ tbl.map Prod.fst) :
    (ks.filterMap (dictLookup tbl)).map Message.arb_id = ks := by
  induction ks with
  | nil => simp
  | cons k ks' ih =>
    have hkmem : k ∈ tbl.map Prod.fst := hks k (by simp)
    have hsome := dictLookup_isSome_of_mem tbl k hkmem
    obtain ⟨m, hm⟩ := Option.isSome_iff_exists.mp hsome
    have hma : m.arb_id = k := hid (k, m) (dictLookup_mem tbl k m hm)
    simp [List.filterMap_cons, hm, hma,
      ih (fun x hx => hks x (List.mem_cons_of_mem _ hx))]

theorem iterate_extract (fuel : Nat) :
    ∀ (t : MessageTable) (s e : Nat),
      t.start = (s : Int) → t.stop = (e : Int) → s ≤ e → e ≤ t.keys.length →
      (∀ k ∈ t.keys, (dictLookup t.table k).isSome = true) →
      e - s ≤ fuel →
      t.iterate fuel =
        ((slice t.keys s e).filterMap (dictLookup t.table),
          { t with start := (e : Int) }) := by
  induction fuel with
  | zero =>
    intro t s e hs he hse hlen hk hfuel
    have hse' : s = e := by omega
    subst hse'
    rw [slice_self]
    simp only [List.filterMap_nil]
    rw [setStart_eq_self t _ hs]
    rfl
  | succ fuel ih =>
    intro t s e hs he hse hlen hk hfuel
    by_cases hse' : s = e
    · subst hse'
      rw [slice_self]
      simp only [List.filterMap_nil]
      rw [iterate_stop t (by rw [hs, he]), setStart_eq_self t _ hs]
    · have hslt : s < e := lt_of_le_of_ne hse hse'
      have hslen : s < t.keys.length := lt_of_lt_of_le hslt hlen
      have hget : pyGet t.keys t.start = some (t.keys.get ⟨s, hslen⟩) := by
        rw [hs]
        simp only [pyGet, Int.ofNat_nonneg, if_pos, Int.toNat_natCast]
        exact List.get?_eq_get hslen
      have hkmem : t.keys.get ⟨s, hslen⟩ ∈ t.keys := List.get_mem _ _ hslen
      obtain ⟨m, hm⟩ :=
        Option.isSome_iff_exists.mp (hk _ hkmem)
      have hne : ¬ t.start = t.stop := by
        rw [hs, he]
        intro hc
        exact hse' (by exact_mod_cast hc)
      have hnext : t.next =
          NextResult.item m { t with start := t.start + 1 } := by
        rw [MessageTable.next, if_neg hne, hget]
        have hm' : dictLookup t.table t.keys[s] = some m := by
          simpa [List.get_eq_getElem] using hm
        simp [hm']
      have hcast : t.start + 1 = ((s + 1 : Nat) : Int) := by
        rw [hs]
        push_cast
        ring
      have hstep := ih { t with start := t.start + 1 } (s + 1) e
        (by simpa using hcast) he hslt hlen hk (by omega)
      rw [show t.iterate (fuel + 1) =
          (m :: ({ t with start := t.start + 1 }.iterate fuel).1,
            ({ t with start := t.start + 1 }.iterate fuel).2) by
        simp [MessageTable.iterate, hnext]]
      rw [hstep]
      rw [slice_cons t.keys s e hslt hslen]
      rw [List.filterMap_cons, hm]

theorem ite_lt_min (x y : Int) : (if x < y then x else y) = min x y := by
  rcases lt_or_ge x y with h | h
  · rw [if_pos h, min_eq_left h.le]
  · rw [if_neg (not_lt.mpr h), min_eq_right h]

theorem call_some_eq (t : MessageTable) (a b : Int) :
    t.call a (some b) = Except.ok { t with
      stop := min b (t.len : Int),
      start := min a (min b (t.len : Int)) } := by
  simp only [MessageTable.call]
  rw [ite_lt_min b ((t.table.length : Nat) : Int)]
  rw [ite_lt_min a (min b ((t.table.length : Nat) : Int))]
  rfl

theorem sortedKeys_nodup (t : MessageTable) (h : (t.table.map Prod.fst).Nodup) :
    (sortedKeys t).Nodup :=
  ((sortedKeys_perm t).nodup_iff).mpr h

theorem window_eq_iterate (t : MessageTable) (a b : Int) (fuel : Nat)
    (e s : Int) (he : e = min b (t.len : Int)) (hs : s = min a e) :
    t.window a (some b) fuel = Except.ok
      (MessageTable.iterate
        { t with stop := e, start := s, keys := sortedKeys t } fuel) := by
  subst hs
  subst he
  rw [MessageTable.window, call_some_eq]
  rfl

/-- Full characterisation of a window selection with nonnegative `start`:
shared backbone for the window claims. -/
theorem window_spec_core (t : MessageTable) (hWF : WF t) (a b : Int)
    (ha : 0 ≤ a) (fuel : Nat) (hfuel : t.len ≤ fuel) :
    ∃ ms tf,
      t.window a (some b) fuel = Except.ok (ms, tf) ∧
      ms = (slice (sortedKeys t)
          (min a (min b (t.len : Int))).toNat
          (min b (t.len : Int)).toNat).filterMap (dictLookup t.table) ∧
      ms.map Message.arb_id = slice (sortedKeys t)
          (min a (min b (t.len : Int))).toNat (min b (t.len : Int)).toNat ∧
      List.Sorted (fun x y => x < y) (ms.map Message.arb_id) ∧
      (ms.length : Int) =
        max 0 (min b (t.len : Int) - min a (min b (t.len : Int))) ∧
      tf.start = tf.stop := by
  have hlen_keys : (sortedKeys t).length = t.len := sortedKeys_length t
  have hmem_keys : ∀ k ∈ sortedKeys t, k ∈ t.table.map Prod.fst :=
    fun k hk => (sortedKeys_perm t).mem_iff.mp hk
  have hk_some : ∀ k ∈ sortedKeys t, (dictLookup t.table k).isSome = true :=
    fun k hk => dictLookup_isSome_of_mem t.table k (hmem_keys k hk)
  obtain ⟨e, he⟩ : ∃ x : Int, x = min b (t.len : Int) := ⟨_, rfl⟩
  obtain ⟨s, hs⟩ : ∃ x : Int, x = min a e := ⟨_, rfl⟩
  rw [← he, ← hs]
  have hsle : s ≤ e := hs ▸ min_le_right a e
  have hen : e ≤ (t.len : Int) := he ▸ min_le_right b _
  by_cases he0 : e < 0
  · have hse : s = e := hs.trans (min_eq_right (le_trans he0.le ha))
    have hst : e.toNat = 0 := Int.toNat_of_nonpos he0.le
    have hss : s.toNat = 0 := by rw [hse, hst]
    refine ⟨[], { t with stop := e, start := s, keys := sortedKeys t },
      ?_, ?_, ?_, ?_, ?_, ?_⟩
    · rw [window_eq_iterate t a b fuel e s he hs]
      rw [iterate_stop _ hse]
    · rw [hst, hss, slice_self, List.filterMap_nil]
    · rw [hst, hss, slice_self]
      rfl
    · exact List.sorted_nil
    · simp only [List.length_nil, Nat.cast_zero]
      omega
    · exact hse
  · push_neg at he0
    have hs0 : 0 ≤ s := hs ▸ le_min ha he0
    have hsNc : ((s.toNat : Nat) : Int) = s := Int.toNat_of_nonneg hs0
    have heNc : ((e.toNat : Nat) : Int) = e := Int.toNat_of_nonneg he0
    have hsNeN : s.toNat ≤ e.toNat := by omega
    have heNlen : e.toNat ≤ (sortedKeys t).length := by
      rw [hlen_keys]
      omega
    have hiter := iterate_extract fuel
      { t with stop := e, start := s, keys := sortedKeys t } s.toNat e.toNat
      hsNc.symm heNc.symm hsNeN heNlen hk_some (by omega)
    rw [heNc] at hiter
    have hids := filterMap_dictLookup_ids t.table hWF.2
      (slice (sortedKeys t) s.toNat e.toNat)
      (fun k hk => hmem_keys k ((slice_sublist _ _ _).mem hk))
    refine ⟨(slice (sortedKeys t) s.toNat e.toNat).filterMap (dictLookup t.table),
      { t with stop := e, start := e, keys := sortedKeys t },
      ?_, rfl, hids, ?_, ?_, rfl⟩
    · rw [window_eq_iterate t a b fuel e s he hs, hiter]
    · rw [hids]
      have hsorted_le : List.Sorted (fun a b => a ≤ b)
          (slice (sortedKeys t) s.toNat e.toNat) :=
        List.Pairwise.sublist (slice_sublist _ _ _) (sortedKeys_sorted t)
      have hnodup : (slice (sortedKeys t) s.toNat e.toNat).Nodup :=
        (sortedKeys_nodup t hWF.1).sublist (slice_sublist _ _ _)
      exact List.Sorted.lt_of_le hsorted_le hnodup
    · have hlen1 : ((slice (sortedKeys t) s.toNat e.toNat).filterMap
          (dictLookup t.table)).length = (slice (sortedKeys t) s.toNat e.toNat).length := by
        conv_rhs => rw [← hids]
        rw [List.length_map]
      rw [hlen1, slice_length _ _ _ heNlen]
      omega

/-! ## Concrete tables for counterexamples and witnesses -/

/-- C3 (amended: for `start ≥ 0`): the window selection iterates the table
as a contiguous ascending-arbitration-id slice of the sorted key list over
the index range `[start, stop)` with `stop` clamped to the table size and
`start` clamped to the clamped `stop`, and it yields exactly
`max 0 (min stop size - min start (min stop size))` entries. -/
theorem window_clamped_slice (t : MessageTable) (hWF : WF t) (a b : Int)
    (ha : 0 ≤ a) (fuel : Nat) (hfuel : t.len ≤ fuel) :
    ∃ ms tf,
      t.window a (some b) fuel = Except.ok (ms, tf) ∧
      ms = (slice (sortedKeys t)
          (min a (min b (t.len : Int))).toNat
          (min b (t.len : Int)).toNat).filterMap (dictLookup t.table) ∧
      ms.map Message.arb_id = slice (sortedKeys t)
          (min a (min b (t.len : Int))).toNat (min b (t.len : Int)).toNat ∧
      List.Sorted (fun x y => x < y) (ms.map Message.arb_id) ∧
      (ms.length : Int) =
        max 0 (min b (t.len : Int) - min a (min b (t.len : Int))) ∧
      tf.start = tf.stop :=
  window_spec_core t hWF a b ha fuel hfuel

/-- C3 counterexample: with the negative start index `-1` on a two-entry
table, the window `(-1, 2)` yields the arbitration ids `[2, 1, 2]` — not in
ascending order and not a contiguous slice of the sorted key list `[1, 2]`,
refuting the claim for arbitrary integer `start`. -/
theorem window_negative_start_cex :
    MessageTable.windowIds tAB (-1) (some 2) 5 = some [2, 1, 2] ∧
    ¬ List.Sorted (fun x y => x < y) [2, 1, 2] ∧
    ∀ s e : Nat, slice [1, 2] s e ≠ [2, 1, 2] := by
  refine ⟨rfl, by decide, fun s e h => ?_⟩
  have hlen := congrArg List.length h
  simp only [slice, List.length_take, List.length_drop, List.length_cons,
    List.length_nil] at hlen
  omega

theorem window_clamped_slice_witness :
    WF tAB ∧ ∃ ms tf,
      tAB.window 0 (some 2) 2 = Except.ok (ms, tf) ∧
      ms = (slice (sortedKeys tAB)
          (min 0 (min 2 (tAB.len : Int))).toNat
          (min 2 (tAB.len : Int)).toNat).filterMap (dictLookup tAB.table) ∧
      ms.map Message.arb_id = slice (sortedKeys tAB)
          (min 0 (min 2 (tAB.len : Int))).toNat (min 2 (tAB.len : Int)).toNat ∧
      List.Sorted (fun x y => x < y) (ms.map Message.arb_id) ∧
      (ms.length : Int) =
        max 0 (min 2 (tAB.len : Int) - min 0 (min 2 (tAB.len : Int))) ∧
      tf.start = tf.stop :=
  ⟨by decide, window_clamped_slice tAB (by decide) 0 2 (by decide) 2 (by decide)⟩

/-- C9: a window selection is consumed by its own iteration: after the
window has been exhausted, its final cursors are equal, so iterating the
table again (which re-enters `__iter__` but does not reset the cursors)
yields zero messages; only a new `__call__` resets the cursors. -/
theorem window_consumes_selection (t : MessageTable) (hWF : WF t) (a b : Int)
    (ha : 0 ≤ a) (fuel : Nat) (hfuel : t.len ≤ fuel) :
    ∃ ms tf,
      t.window a (some b) fuel = Except.ok (ms, tf) ∧
      tf.start = tf.stop ∧
      ∀ fuel2 : Nat, ((tf.iter).iterate fuel2).1 = [] := by
  obtain ⟨ms, tf, hw, _, _, _, _, hcur⟩ := window_spec_core t hWF a b ha fuel hfuel
  refine ⟨ms, tf, hw, hcur, fun fuel2 => ?_⟩
  have hcur2 : (tf.iter).start = (tf.iter).stop := hcur
  rw [iterate_stop _ hcur2]

theorem window_consumes_selection_witness :
    WF tAB ∧ ∃ ms tf,
      tAB.window 0 (some 2) 2 = Except.ok (ms, tf) ∧
      tf.start = tf.stop ∧
      ∀ fuel2 : Nat, ((tf.iter).iterate fuel2).1 = [] :=
  ⟨by decide, window_consumes_selection tAB (by decide) 0 2 (by decide) 2 (by decide)⟩

theorem WF_filterTypes (t : MessageTable) (T : List MessageType) (h : WF t) :
    WF (t.filterTypes T) := by
  constructor
  · exact h.1.sublist ((List.filter_sublist _).map Prod.fst)
  · intro p hp
    exact h.2 p (List.mem_of_mem_filter hp)

theorem dictLookup_of_mem_nodup (tbl : List (Nat × Message))
    (hnd : (tbl.map Prod.fst).Nodup) (k : Nat) (m : Message)
    (hm : (k, m) ∈ tbl) : dictLookup tbl k = some m := by
  induction tbl with
  | nil => simp at hm
  | cons p rest ih =>
    obtain ⟨k', v'⟩ := p
    simp only [List.map_cons, List.nodup_cons] at hnd
    rcases List.mem_cons.mp hm with h | h
    · cases h
      simp [dictLookup]
    · have hk : ¬ k' = k := by
        intro hc
        subst hc
        exact hnd.1 (List.mem_map.mpr ⟨(k', m), h, rfl⟩)
      simp [dictLookup, hk, ih hnd.2 h]

theorem slice_zero_length (xs : List Nat) : slice xs 0 xs.length = xs := by
  simp [slice]

theorem filterTypes_table_subset_union (t : MessageTable)
    (T1 T2 : List MessageType) (k : Nat) (m : Message)
    (h : (k, m) ∈ ((t.filterTypes T1).filterTypes T2).table) :
    (k, m) ∈ (t.filterTypes (T1 ++ T2)).table := by
  simp only [MessageTable.filterTypes, List.mem_filter] at h ⊢
  obtain ⟨⟨hmem, h1⟩, _⟩ := h
  refine ⟨hmem, ?_⟩
  simp only [Bool.or_eq_true, List.elem_iff, List.mem_append] at h1 ⊢
  tauto

/-- Every message yielded by a window of `t` is an entry of `t.table`. -/
theorem window_mem_table (t : MessageTable) (hWF : WF t) (a b : Int)
    (ha : 0 ≤ a) (fuel : Nat) (hfuel : t.len ≤ fuel) (ms : List Message)
    (tf : MessageTable) (hw : t.window a (some b) fuel = Except.ok (ms, tf)) :
    ∀ m ∈ ms, ∃ k, (k, m) ∈ t.table := by
  obtain ⟨ms', tf', hw', hms, _, _, _, _⟩ := window_spec_core t hWF a b ha fuel hfuel
  rw [hw] at hw'
  obtain ⟨rfl, rfl⟩ : ms = ms' ∧ tf = tf' := by
    have h1 := congrArg (fun x => match x with
      | Except.ok (y, z) => (y, z)
      | Except.error _ => ([], t)) hw'
    simp at h1
    exact ⟨h1.1, h1.2⟩
  intro m hm
  rw [hms] at hm
  obtain ⟨k, _, hlk⟩ := List.mem_filterMap.mp hm
  exact ⟨k, dictLookup_mem t.table k m hlk⟩

/-- The full window `(0, len)` of a well-formed table yields every entry. -/
theorem window_full_covers (t : MessageTable) (hWF : WF t) (fuel : Nat)
    (hfuel : t.len ≤ fuel) :
    ∃ ms tf, t.window 0 (some (t.len : Int)) fuel = Except.ok (ms, tf) ∧
      ∀ k m, (k, m) ∈ t.table → m ∈ ms := by
  obtain ⟨ms, tf, hw, hms, _, _, _, _⟩ :=
    window_spec_core t hWF 0 (t.len : Int) le_rfl fuel hfuel
  refine ⟨ms, tf, hw, fun k m hkm => ?_⟩
  have hmin1 : min (t.len : Int) (t.len : Int) = (t.len : Int) := min_self _
  have hmin2 : min (0 : Int) (t.len : Int) = 0 :=
    min_eq_left (Int.ofNat_nonneg _)
  rw [hmin1, hmin2] at hms
  have hslice : slice (sortedKeys t) (0 : Int).toNat ((t.len : Int)).toNat =
      sortedKeys t := by
    rw [Int.toNat_zero, Int.toNat_natCast]
    have hl : t.len = (sortedKeys t).length := (sortedKeys_length t).symm
    rw [hl]
    exact slice_zero_length _
  rw [hslice] at hms
  rw [hms]
  refine List.mem_filterMap.mpr ⟨k, ?_, ?_⟩
  · exact (sortedKeys_perm t).mem_iff.mpr
      (List.mem_map.mpr ⟨(k, m), hkm, rfl⟩)
  · exact dictLookup_of_mem_nodup t.table hWF.1 k m hkm

/-- C7 counterexample: with the same window bounds `(0, 1)` on both sides,
the single entry of `filter(T1).filter(T2)` is not among the entries of the
same-bounds window of `filter(T1 ∪ T2)`, refuting the subset claim for
arbitrary equal bounds. -/
theorem filter_union_window_cex :
    (∃ tf, ((tAB.filterTypes [10, 11]).filterTypes [11]).window 0 (some 1) 5 =
      Except.ok ([msgB], tf)) ∧
    (∃ tf, (tAB.filterTypes ([10, 11] ++ [11])).window 0 (some 1) 5 =
      Except.ok ([msgA], tf)) ∧
    msgB ∈ [msgB] ∧ msgB ∉ [msgA] :=
  ⟨⟨_, rfl⟩, ⟨_, rfl⟩, by decide, by decide⟩

/-- C7 (amended): every message in any window of
`filter(T1).filter(T2)` appears among the **full** windowed results
`(0, len)` of `filter(T1 ∪ T2)` — filtering is monotone at the level of
the yielded entries, though not index-window by index-window. -/
theorem filter_filter_window_subset (t : MessageTable) (hWF : WF t)
    (T1 T2 : List MessageType) (a b : Int) (ha : 0 ≤ a) (fuel fuel2 : Nat)
    (hfuel : ((t.filterTypes T1).filterTypes T2).len ≤ fuel)
    (hfuel2 : (t.filterTypes (T1 ++ T2)).len ≤ fuel2) :
    ∃ ms tf ms2 tf2,
      ((t.filterTypes T1).filterTypes T2).window a (some b) fuel =
        Except.ok (ms, tf) ∧
      (t.filterTypes (T1 ++ T2)).window 0
        (some ((t.filterTypes (T1 ++ T2)).len : Int)) fuel2 =
        Except.ok (ms2, tf2) ∧
      ∀ m ∈ ms, m ∈ ms2 := by
  have hWF1 : WF ((t.filterTypes T1).filterTypes T2) :=
    WF_filterTypes _ T2 (WF_filterTypes t T1 hWF)
  have hWF2 : WF (t.filterTypes (T1 ++ T2)) := WF_filterTypes t _ hWF
  obtain ⟨ms, tf, hw, _, _, _, _, _⟩ :=
    window_spec_core _ hWF1 a b ha fuel hfuel
  obtain ⟨ms2, tf2, hw2, hcov⟩ := window_full_covers _ hWF2 fuel2 hfuel2
  refine ⟨ms, tf, ms2, tf2, hw, hw2, fun m hm => ?_⟩
  obtain ⟨k, hk⟩ := window_mem_table _ hWF1 a b ha fuel hfuel ms tf hw m hm
  exact hcov k m (filterTypes_table_subset_union t T1 T2 k m hk)

theorem filter_filter_window_subset_witness :
    WF tAB ∧ ∃ ms tf ms2 tf2,
      ((tAB.filterTypes [10, 11]).filterTypes [11]).window 0 (some 1) 5 =
        Except.ok (ms, tf) ∧
      (tAB.filterTypes ([10, 11] ++ [11])).window 0
        (some ((tAB.filterTypes ([10, 11] ++ [11])).len : Int)) 5 =
        Except.ok (ms2, tf2) ∧
      ∀ m ∈ ms, m ∈ ms2 :=
  ⟨by decide,
   filter_filter_window_subset tAB (by decide) [10, 11] [11] 0 1 (by decide)
     5 5 (by decide) (by decide)⟩

end CanMonitor
